import Mathlib

set_option maxRecDepth 8000

-- Shallow embedding of the version-rewriting scripts of this repository:
-- update_versions.py and bump-version.py.  Strings are modelled as List Char
-- (via String.data), regex substitution as a leftmost, non-overlapping scan.
-- The regex classes backslash-s and backslash-d are modelled over ASCII,
-- which covers every literal appearing in the scripts.

/-- The single-quote character. -/
def squote : Char := Char.ofNat 39

/-- The double-quote character. -/
def dquote : Char := Char.ofNat 34

/-- ASCII whitespace: the regex class backslash-s
(space, tab, newline, vertical tab, form feed, carriage return). -/
def isWs (c : Char) : Bool :=
  c = ' ' || c = Char.ofNat 9 || c = Char.ofNat 10 || c = Char.ofNat 11 ||
    c = Char.ofNat 12 || c = Char.ofNat 13

/-- The regex character class holding a single or a double quote. -/
def isQuote (c : Char) : Bool := c = squote || c = dquote

/-- Characters admitted after the marker by VERSION_PATTERN, the regex
question-mark v equals followed by one or more characters that are not
whitespace, not a quote, not a closing parenthesis or bracket and not
a greater-than sign (update_versions.py line 27). -/
def vchar (c : Char) : Bool :=
  !(isWs c || c = dquote || c = squote || c = ')' || c = ']' || c = '>')

-- Generic leftmost, non-overlapping substitution engine.  A matcher m tries
-- to recognise one occurrence of a pattern at the head of the input and
-- returns the captured data x and the remaining input r; f renders the
-- replacement text of a recognised occurrence.  Python's re.sub and re.subn
-- scan the input left to right exactly this way.  The engine is written with
-- a fuel argument (structural recursion, so the kernel can evaluate it);
-- gsub supplies the input length as fuel, which is always sufficient because
-- a match consumes at least one character.

/-- Fuelled worker of the substitution engine. -/
def gsubGo {M : Type} (m : List Char → Option (M × List Char)) (f : M → List Char) :
    Nat → List Char → List Char × Nat
  | 0, s => (s, 0)
  | _ + 1, [] => ([], 0)
  | fuel + 1, c :: cs =>
    match m (c :: cs) with
    | some (x, r) =>
      let t := gsubGo m f fuel r
      (f x ++ t.1, t.2 + 1)
    | none =>
      let t := gsubGo m f fuel cs
      (c :: t.1, t.2)

/-- Replace every leftmost, non-overlapping occurrence recognised by m,
returning the rewritten text and the number of replacements (re.subn). -/
def gsub {M : Type} (m : List Char → Option (M × List Char)) (f : M → List Char)
    (s : List Char) : List Char × Nat :=
  gsubGo m f s.length s

/-- First occurrence recognised by m at any position (re.search). -/
def gfind {M : Type} (m : List Char → Option (M × List Char)) : List Char → Option M
  | [] => none
  | c :: cs =>
    match m (c :: cs) with
    | some (x, _) => some x
    | none => gfind m cs

/-- Interleave unmatched gaps with (replacement or matched) segments,
followed by a final gap. -/
def glue : List (List Char × List Char) → List Char → List Char
  | [], t => t
  | (g, x) :: ps, t => g ++ (x ++ glue ps t)

theorem gsubGo_stable {M : Type} (m : List Char → Option (M × List Char))
    (f : M → List Char)
    (hm : ∀ s x r, m s = some (x, r) → r.length < s.length) :
    ∀ f1 f2 s, s.length ≤ f1 → s.length ≤ f2 →
      gsubGo m f f1 s = gsubGo m f f2 s := by
  intro f1
  induction f1 with
  | zero =>
    intro f2 s h1 _
    have hs : s = [] := List.eq_nil_of_length_eq_zero (Nat.le_zero.mp h1)
    subst hs
    cases f2 <;> rfl
  | succ n ih =>
    intro f2 s h1 h2
    cases s with
    | nil => cases f2 <;> rfl
    | cons c cs =>
      cases f2 with
      | zero => simp at h2
      | succ n2 =>
        have h1' : cs.length ≤ n := by simpa using h1
        have h2' : cs.length ≤ n2 := by simpa using h2
        cases hmc : m (c :: cs) with
        | some xr =>
          obtain ⟨x, r⟩ := xr
          have hr : r.length < cs.length + 1 := by
            simpa using hm _ _ _ hmc
          simp only [gsubGo, hmc]
          rw [ih n2 r (by omega) (by omega)]
        | none =>
          simp only [gsubGo, hmc]
          rw [ih n2 cs h1' h2']

theorem gsub_nil {M : Type} (m : List Char → Option (M × List Char))
    (f : M → List Char) : gsub m f [] = ([], 0) := rfl

theorem gsub_cons_none {M : Type} {m : List Char → Option (M × List Char)}
    {f : M → List Char} {c : Char} {cs : List Char}
    (h : m (c :: cs) = none) :
    gsub m f (c :: cs) = (c :: (gsub m f cs).1, (gsub m f cs).2) := by
  simp only [gsub, List.length_cons, gsubGo, h]

theorem gsub_cons_some {M : Type} {m : List Char → Option (M × List Char)}
    {f : M → List Char}
    (hm : ∀ s x r, m s = some (x, r) → r.length < s.length)
    {c : Char} {cs : List Char} {x : M} {r : List Char}
    (h : m (c :: cs) = some (x, r)) :
    gsub m f (c :: cs) = (f x ++ (gsub m f r).1, (gsub m f r).2 + 1) := by
  have hr : r.length < cs.length + 1 := by simpa using hm _ _ _ h
  simp only [gsub, List.length_cons, gsubGo, h]
  rw [gsubGo_stable m f hm cs.length r.length r (by omega) (le_refl _)]

-- List helpers used throughout.

theorem dropWhile_len_le {α : Type} (p : α → Bool) :
    ∀ l : List α, (l.dropWhile p).length ≤ l.length := by
  intro l
  induction l with
  | nil => simp [List.dropWhile]
  | cons a t ih =>
    cases h : p a with
    | true =>
      simp only [List.dropWhile, h]
      exact Nat.le_succ_of_le ih
    | false =>
      simp only [List.dropWhile, h]
      simp

theorem dropWhile_shape {α : Type} (p : α → Bool) (l : List α) :
    l.dropWhile p = [] ∨
      ∃ g gs, l.dropWhile p = g :: gs ∧ p g = false := by
  induction l with
  | nil => left; rfl
  | cons a t ih =>
    cases h : p a with
    | true => simp only [List.dropWhile, h]; exact ih
    | false =>
      right
      exact ⟨a, t, by simp [List.dropWhile, h], h⟩

theorem all_takeWhile {α : Type} (p : α → Bool) :
    ∀ l : List α, (l.takeWhile p).all p = true := by
  intro l
  induction l with
  | nil => rfl
  | cons a t ih =>
    cases h : p a with
    | true => simp [List.takeWhile, h, ih]
    | false => simp [List.takeWhile, h]

theorem takeWhile_append_all {α : Type} (p : α → Bool) :
    ∀ (A B : List α), A.all p = true →
      (A ++ B).takeWhile p = A ++ B.takeWhile p := by
  intro A
  induction A with
  | nil => intro B _; rfl
  | cons a t ih =>
    intro B h
    simp only [List.all_cons, Bool.and_eq_true] at h
    simp [List.takeWhile, h.1, ih B h.2]

theorem dropWhile_append_all {α : Type} (p : α → Bool) :
    ∀ (A B : List α), A.all p = true →
      (A ++ B).dropWhile p = B.dropWhile p := by
  intro A
  induction A with
  | nil => intro B _; rfl
  | cons a t ih =>
    intro B h
    simp only [List.all_cons, Bool.and_eq_true] at h
    simp [List.dropWhile, h.1, ih B h.2]

theorem take_len_append {α : Type} :
    ∀ (A B : List α) (n : Nat), A.length = n → (A ++ B).take n = A := by
  intro A
  induction A with
  | nil => intro B n h; simp at h; simp [h]
  | cons a t ih =>
    intro B n h
    cases n with
    | zero => simp at h
    | succ k =>
      simp only [List.length_cons, Nat.succ.injEq] at h
      simp [List.take, ih B k h]

theorem drop_len_append {α : Type} :
    ∀ (A B : List α) (n : Nat), A.length = n → (A ++ B).drop n = B := by
  intro A
  induction A with
  | nil =>
    intro B n h
    simp only [List.length_nil] at h
    cases h
    simp
  | cons a t ih =>
    intro A n h
    cases n with
    | zero => simp at h
    | succ k =>
      simp only [List.length_cons, Nat.succ.injEq] at h
      simp [List.drop, ih A k h]

-- Decomposition of a substitution run: the input splits into unmatched gaps
-- interleaved with matched occurrences; the output is the same gaps with each
-- occurrence replaced by its rendering; the count is the number of
-- occurrences; the first occurrence is the one re.search finds.

theorem gsub_decomp {M : Type} (m : List Char → Option (M × List Char))
    (f : M → List Char)
    (hm : ∀ s x r, m s = some (x, r) → r.length < s.length)
    (text : M → List Char)
    (htext : ∀ s x r, m s = some (x, r) → s = text x ++ r) :
    ∀ (n : Nat) (s : List Char), s.length ≤ n →
      ∃ (pieces : List (List Char × M)) (tail : List Char),
        s = glue (pieces.map (fun p => (p.1, text p.2))) tail ∧
        (gsub m f s).1 = glue (pieces.map (fun p => (p.1, f p.2))) tail ∧
        (gsub m f s).2 = pieces.length ∧
        (∀ p ∈ pieces, ∃ s1 r1, m s1 = some (p.2, r1)) ∧
        (pieces.map Prod.snd).head? = gfind m s := by
  intro n
  induction n with
  | zero =>
    intro s h
    have hs : s = [] := List.eq_nil_of_length_eq_zero (Nat.le_zero.mp h)
    subst hs
    exact ⟨[], [], rfl, rfl, rfl, by simp, rfl⟩
  | succ n ih =>
    intro s hlen
    cases s with
    | nil => exact ⟨[], [], rfl, rfl, rfl, by simp, rfl⟩
    | cons c cs =>
      have hlen' : cs.length ≤ n := by simpa using hlen
      cases hmc : m (c :: cs) with
      | some xr =>
        obtain ⟨x, r⟩ := xr
        have hr : r.length ≤ n := by
          have := hm _ _ _ hmc
          simp only [List.length_cons] at this
          omega
        obtain ⟨ps, tl, e1, e2, e3, e4, e5⟩ := ih r hr
        refine ⟨([], x) :: ps, tl, ?_, ?_, ?_, ?_, ?_⟩
        · simp only [List.map_cons, glue, List.nil_append]
          rw [← e1]
          exact htext _ _ _ hmc
        · rw [gsub_cons_some hm hmc]
          simp only [List.map_cons, glue, List.nil_append]
          rw [e2]
        · rw [gsub_cons_some hm hmc]
          simp [e3]
        · intro p hp
          rcases List.mem_cons.mp hp with h | h
          · subst h
            exact ⟨c :: cs, r, hmc⟩
          · exact e4 p h
        · simp [gfind, hmc]
      | none =>
        obtain ⟨ps, tl, e1, e2, e3, e4, e5⟩ := ih cs hlen'
        cases ps with
        | nil =>
          refine ⟨[], c :: tl, ?_, ?_, ?_, ?_, ?_⟩
          · simp only [List.map_nil, glue] at e1 ⊢
            rw [e1]
          · rw [gsub_cons_none hmc]
            simp only [List.map_nil, glue] at e2 ⊢
            rw [e2]
          · rw [gsub_cons_none hmc]
            simpa using e3
          · simp
          · simp only [List.map_nil, List.head?_nil] at e5
            simp [gfind, hmc, ← e5]
        | cons p ps' =>
          refine ⟨(c :: p.1, p.2) :: ps', tl, ?_, ?_, ?_, ?_, ?_⟩
          · simp only [List.map_cons, glue, List.cons_append] at e1 ⊢
            rw [e1]
          · rw [gsub_cons_none hmc]
            simp only [List.map_cons, glue, List.cons_append] at e2 ⊢
            rw [e2]
          · rw [gsub_cons_none hmc]
            simpa using e3
          · intro q hq
            rcases List.mem_cons.mp hq with h | h
            · subst h
              simpa using e4 (p.1, p.2) (by simp)
            · exact e4 q (by simp [h])
          · simp only [List.map_cons, List.head?_cons] at e5 ⊢
            simp [gfind, hmc, ← e5]

theorem gsub_decomposition {M : Type} (m : List Char → Option (M × List Char))
    (f : M → List Char)
    (hm : ∀ s x r, m s = some (x, r) → r.length < s.length)
    (text : M → List Char)
    (htext : ∀ s x r, m s = some (x, r) → s = text x ++ r)
    (s : List Char) :
    ∃ (pieces : List (List Char × M)) (tail : List Char),
      s = glue (pieces.map (fun p => (p.1, text p.2))) tail ∧
      (gsub m f s).1 = glue (pieces.map (fun p => (p.1, f p.2))) tail ∧
      (gsub m f s).2 = pieces.length ∧
      (∀ p ∈ pieces, ∃ s1 r1, m s1 = some (p.2, r1)) ∧
      (pieces.map Prod.snd).head? = gfind m s :=
  gsub_decomp m f hm text htext s.length s (le_refl _)

theorem gsub_count_zero {M : Type} {m : List Char → Option (M × List Char)}
    {f : M → List Char}
    (hm : ∀ s x r, m s = some (x, r) → r.length < s.length) :
    ∀ (n : Nat) (s : List Char), s.length ≤ n →
      (gsub m f s).2 = 0 → (gsub m f s).1 = s := by
  intro n
  induction n with
  | zero =>
    intro s h _
    have hs : s = [] := List.eq_nil_of_length_eq_zero (Nat.le_zero.mp h)
    subst hs
    rfl
  | succ n ih =>
    intro s hlen h0
    cases s with
    | nil => rfl
    | cons c cs =>
      cases hmc : m (c :: cs) with
      | some xr =>
        obtain ⟨x, r⟩ := xr
        rw [gsub_cons_some hm hmc] at h0
        simp at h0
      | none =>
        rw [gsub_cons_none hmc] at h0 ⊢
        have := ih cs (by simpa using hlen) h0
        simp [this]

theorem gsub_count_pos_iff {M : Type} {m : List Char → Option (M × List Char)}
    {f : M → List Char}
    (hm : ∀ s x r, m s = some (x, r) → r.length < s.length) :
    ∀ (n : Nat) (s : List Char), s.length ≤ n →
      (0 < (gsub m f s).2 ↔ gfind m s ≠ none) := by
  intro n
  induction n with
  | zero =>
    intro s h
    have hs : s = [] := List.eq_nil_of_length_eq_zero (Nat.le_zero.mp h)
    subst hs
    simp [gsub_nil, gfind]
  | succ n ih =>
    intro s hlen
    cases s with
    | nil => simp [gsub_nil, gfind]
    | cons c cs =>
      cases hmc : m (c :: cs) with
      | some xr =>
        obtain ⟨x, r⟩ := xr
        rw [gsub_cons_some hm hmc]
        simp [gfind, hmc]
      | none =>
        rw [gsub_cons_none hmc]
        simp only [gfind, hmc]
        exact ih cs (by simpa using hlen)

-- VERSION_PATTERN of update_versions.py line 27: a question mark, the letter
-- v, an equals sign, then one or more vchar characters (greedy).

/-- Matcher of VERSION_PATTERN at the head of the input.  The captured data
is the greedy token after the three marker characters. -/
def qvM (s : List Char) : Option (List Char × List Char) :=
  match s with
  | c1 :: c2 :: c3 :: c4 :: rest =>
    if c1 = '?' ∧ c2 = 'v' ∧ c3 = '=' ∧ vchar c4 = true then
      some (c4 :: rest.takeWhile vchar, rest.dropWhile vchar)
    else none
  | _ => none

/-- The replacement string of both scripts: the marker followed by the new
version (the f-string question-mark v equals new_version). -/
def qvRepl (v : List Char) : List Char := '?' :: 'v' :: '=' :: v

/-- The full text of a VERSION_PATTERN occurrence with token x. -/
theorem qvM_text : ∀ s x r, qvM s = some (x, r) → s = qvRepl x ++ r := by
  intro s x r h
  match s with
  | [] => exact absurd h (by simp [qvM])
  | [a] => exact absurd h (by simp [qvM])
  | [a, b] => exact absurd h (by simp [qvM])
  | [a, b, c] => exact absurd h (by simp [qvM])
  | c1 :: c2 :: c3 :: c4 :: rest =>
    simp only [qvM] at h
    split at h
    · rename_i hc
      obtain ⟨h1, h2, h3, h4⟩ := hc
      injection h with h'
      injection h' with hx hr
      subst h1; subst h2; subst h3; subst hx; subst hr
      simp [qvRepl]
    · exact absurd h (by simp)

theorem qvM_lt : ∀ s x r, qvM s = some (x, r) → r.length < s.length := by
  intro s x r h
  have ht := qvM_text s x r h
  subst ht
  simp [qvRepl]
  omega

/-- Captured data of a VERSION_PATTERN occurrence: a nonempty all-vchar
token, and the rest starts with a non-vchar character (greedy maximality). -/
theorem qvM_post : ∀ s x r, qvM s = some (x, r) →
    x ≠ [] ∧ x.all vchar = true ∧
      (r = [] ∨ ∃ g gs, r = g :: gs ∧ vchar g = false) := by
  intro s x r h
  match s with
  | [] => exact absurd h (by simp [qvM])
  | [a] => exact absurd h (by simp [qvM])
  | [a, b] => exact absurd h (by simp [qvM])
  | [a, b, c] => exact absurd h (by simp [qvM])
  | c1 :: c2 :: c3 :: c4 :: rest =>
    simp only [qvM] at h
    split at h
    · rename_i hc
      obtain ⟨h1, h2, h3, h4⟩ := hc
      injection h with h'
      injection h' with hx hr
      subst hx; subst hr
      refine ⟨by simp, ?_, dropWhile_shape vchar rest⟩
      simp [h4, all_takeWhile]
    · exact absurd h (by simp)

theorem qvM_none_head : ∀ (g : Char) (gs : List Char), g ≠ '?' →
    qvM (g :: gs) = none := by
  intro g gs hg
  match gs with
  | [] => rfl
  | [a] => rfl
  | [a, b] => rfl
  | a :: b :: c :: t =>
    simp only [qvM]
    rw [if_neg]
    rintro ⟨h1, -⟩
    exact hg h1

theorem qvM_none₂ : ∀ (a b : Char) (l : List Char), b ≠ 'v' →
    qvM (a :: b :: l) = none := by
  intro a b l hb
  match l with
  | [] => rfl
  | [c] => rfl
  | c :: d :: t =>
    simp only [qvM]
    rw [if_neg]
    rintro ⟨-, h2, -⟩
    exact hb h2

theorem qvM_none₃ : ∀ (a b c : Char) (l : List Char), c ≠ '=' →
    qvM (a :: b :: c :: l) = none := by
  intro a b c l hc
  match l with
  | [] => rfl
  | d :: t =>
    simp only [qvM]
    rw [if_neg]
    rintro ⟨-, -, h3, -⟩
    exact hc h3

theorem qvM_none₄ : ∀ (a b c d : Char) (l : List Char), vchar d = false →
    qvM (a :: b :: c :: d :: l) = none := by
  intro a b c d l hd
  simp only [qvM]
  rw [if_neg]
  rintro ⟨-, -, -, h4⟩
  rw [hd] at h4
  exact Bool.false_ne_true h4

-- The fixed-width variant of bump-version.py lines 91 and 99: a question
-- mark, v, equals, then exactly fourteen digits (the captured group).

/-- Matcher of the fourteen-digit version pattern at the head of the input.
The captured data is the digit group. -/
def qv14M (s : List Char) : Option (List Char × List Char) :=
  match s with
  | c1 :: c2 :: c3 :: rest =>
    if c1 = '?' ∧ c2 = 'v' ∧ c3 = '=' ∧ (rest.take 14).length = 14 ∧
        (rest.take 14).all Char.isDigit = true then
      some (rest.take 14, rest.drop 14)
    else none
  | _ => none

theorem qv14M_text : ∀ s x r, qv14M s = some (x, r) → s = qvRepl x ++ r := by
  intro s x r h
  match s with
  | [] => exact absurd h (by simp [qv14M])
  | [a] => exact absurd h (by simp [qv14M])
  | [a, b] => exact absurd h (by simp [qv14M])
  | c1 :: c2 :: c3 :: rest =>
    simp only [qv14M] at h
    split at h
    · rename_i hc
      obtain ⟨h1, h2, h3, h4, h5⟩ := hc
      injection h with h'
      injection h' with hx hr
      subst h1; subst h2; subst h3; subst hx; subst hr
      simp [qvRepl]
    · exact absurd h (by simp)

theorem qv14M_lt : ∀ s x r, qv14M s = some (x, r) → r.length < s.length := by
  intro s x r h
  have ht := qv14M_text s x r h
  subst ht
  simp [qvRepl]
  omega

/-- Captured data of a fourteen-digit occurrence: exactly fourteen digits. -/
theorem qv14M_post : ∀ s x r, qv14M s = some (x, r) →
    x.length = 14 ∧ x.all Char.isDigit = true := by
  intro s x r h
  match s with
  | [] => exact absurd h (by simp [qv14M])
  | [a] => exact absurd h (by simp [qv14M])
  | [a, b] => exact absurd h (by simp [qv14M])
  | c1 :: c2 :: c3 :: rest =>
    simp only [qv14M] at h
    split at h
    · rename_i hc
      obtain ⟨h1, h2, h3, h4, h5⟩ := hc
      injection h with h'
      injection h' with hx hr
      subst hx
      exact ⟨h4, h5⟩
    · exact absurd h (by simp)

theorem qv14M_none_head : ∀ (g : Char) (gs : List Char), g ≠ '?' →
    qv14M (g :: gs) = none := by
  intro g gs hg
  match gs with
  | [] => rfl
  | [a] => rfl
  | a :: b :: t =>
    simp only [qv14M]
    rw [if_neg]
    rintro ⟨h1, -⟩
    exact hg h1

theorem qv14M_none₂ : ∀ (a b : Char) (l : List Char), b ≠ 'v' →
    qv14M (a :: b :: l) = none := by
  intro a b l hb
  match l with
  | [] => rfl
  | c :: t =>
    simp only [qv14M]
    rw [if_neg]
    rintro ⟨-, h2, -⟩
    exact hb h2

theorem qv14M_none₃ : ∀ (a b c : Char) (l : List Char), c ≠ '=' →
    qv14M (a :: b :: c :: l) = none := by
  intro a b c l hc
  simp only [qv14M]
  rw [if_neg]
  rintro ⟨-, -, h3, -⟩
  exact hc h3

theorem qv14M_none_digits : ∀ (a b c : Char) (l : List Char),
    ¬((l.take 14).length = 14 ∧ (l.take 14).all Char.isDigit = true) →
    qv14M (a :: b :: c :: l) = none := by
  intro a b c l hd
  simp only [qv14M]
  rw [if_neg]
  rintro ⟨-, -, -, h4, h5⟩
  exact hd ⟨h4, h5⟩

theorem qv14M_digits_of_some : ∀ (l : List Char) (x : List Char) (r : List Char),
    qv14M ('?' :: 'v' :: '=' :: l) = some (x, r) →
    (l.take 14).length = 14 ∧ (l.take 14).all Char.isDigit = true := by
  intro l x r h
  simp only [qv14M] at h
  split at h
  · rename_i hc
    exact ⟨hc.2.2.2.1, hc.2.2.2.2⟩
  · exact absurd h (by simp)

theorem qv14M_none_digits_inv : ∀ (l : List Char),
    qv14M ('?' :: 'v' :: '=' :: l) = none →
    ¬((l.take 14).length = 14 ∧ (l.take 14).all Char.isDigit = true) := by
  intro l h hcontra
  simp only [qv14M] at h
  rw [if_pos ⟨trivial, trivial, trivial, hcontra.1, hcontra.2⟩] at h
  exact Option.noConfusion h

-- The two substitution operations built on the engine.

/-- update_versions.py line 69: VERSION_PATTERN.sub of the new marker,
together with the match count of line 64 (re.subn semantics). -/
def VERSION_PATTERN_sub (newV content : List Char) : List Char × Nat :=
  gsub qvM (fun _ => qvRepl newV) content

/-- bump-version.py lines 99 and 106: re.subn of the fourteen-digit pattern
with the new marker. -/
def qv14_sub (newV content : List Char) : List Char × Nat :=
  gsub qv14M (fun _ => qvRepl newV) content

theorem vchar_of_ne : vchar '?' = true := by decide

theorem qvM_vchar_false_of_none : ∀ (g : Char) (l : List Char),
    qvM ('?' :: 'v' :: '=' :: g :: l) = none → vchar g = false := by
  intro g l h
  cases hv : vchar g with
  | false => rfl
  | true =>
    exfalso
    simp only [qvM] at h
    rw [if_pos ⟨trivial, trivial, trivial, hv⟩] at h
    exact Option.noConfusion h

theorem qvM_at_repl (V O : List Char) (hva : V.all vchar = true) (hne : V ≠ [])
    (hO : O = [] ∨ ∃ g gs, O = g :: gs ∧ vchar g = false) :
    qvM (qvRepl V ++ O) = some (V, O) := by
  cases V with
  | nil => exact absurd rfl hne
  | cons v0 V' =>
    simp only [List.all_cons, Bool.and_eq_true] at hva
    have hTO : O.takeWhile vchar = [] := by
      rcases hO with h0 | ⟨g, gs, h1, hg⟩
      · rw [h0]; rfl
      · rw [h1]; simp [List.takeWhile, hg]
    have hDO : O.dropWhile vchar = O := by
      rcases hO with h0 | ⟨g, gs, h1, hg⟩
      · rw [h0]; rfl
      · rw [h1]; simp [List.dropWhile, hg]
    have hT : (V' ++ O).takeWhile vchar = V' := by
      rw [takeWhile_append_all vchar V' O hva.2, hTO]
      simp
    have hD : (V' ++ O).dropWhile vchar = O := by
      rw [dropWhile_append_all vchar V' O hva.2, hDO]
    show qvM ('?' :: 'v' :: '=' :: v0 :: (V' ++ O)) = some (v0 :: V', O)
    simp only [qvM]
    rw [if_pos ⟨trivial, trivial, trivial, hva.1⟩, hT, hD]

theorem qv_second_none (V : List Char) : ∀ (c : Char) (cs : List Char),
    qvM (c :: cs) = none →
    qvM (c :: (gsub qvM (fun _ => qvRepl V) cs).1) = none := by
  intro c cs h
  by_cases hc : c = '?'
  case neg => exact qvM_none_head _ _ hc
  subst hc
  cases cs with
  | nil => rfl
  | cons e cs' =>
    cases hm1 : qvM (e :: cs') with
    | some xr =>
      obtain ⟨x, r⟩ := xr
      rw [gsub_cons_some qvM_lt hm1]
      show qvM ('?' :: '?' :: 'v' :: '=' :: (V ++ (gsub qvM (fun _ => qvRepl V) r).1)) = none
      exact qvM_none₂ _ _ _ (by decide)
    | none =>
      rw [gsub_cons_none hm1]
      by_cases he : e = 'v'
      case neg => exact qvM_none₂ _ _ _ he
      subst he
      cases cs' with
      | nil => rfl
      | cons e' cs'' =>
        cases hm2 : qvM (e' :: cs'') with
        | some xr =>
          obtain ⟨x, r⟩ := xr
          rw [gsub_cons_some qvM_lt hm2]
          show qvM ('?' :: 'v' :: '?' :: 'v' :: '=' ::
            (V ++ (gsub qvM (fun _ => qvRepl V) r).1)) = none
          exact qvM_none₃ _ _ _ _ (by decide)
        | none =>
          rw [gsub_cons_none hm2]
          by_cases he' : e' = '='
          case neg => exact qvM_none₃ _ _ _ _ he'
          subst he'
          cases cs'' with
          | nil => rfl
          | cons g cs3 =>
            have hg : vchar g = false := qvM_vchar_false_of_none g cs3 h
            have hgq : g ≠ '?' := by
              intro hgg
              rw [hgg] at hg
              exact absurd hg (by decide)
            have hm3 : qvM (g :: cs3) = none := qvM_none_head _ _ hgq
            rw [gsub_cons_none hm3]
            exact qvM_none₄ _ _ _ _ _ hg

theorem qv14_at_repl (D O : List Char) (hlen : D.length = 14)
    (hd : D.all Char.isDigit = true) :
    qv14M (qvRepl D ++ O) = some (D, O) := by
  have hT : (D ++ O).take 14 = D := take_len_append D O 14 hlen
  have hDr : (D ++ O).drop 14 = O := drop_len_append D O 14 hlen
  show qv14M ('?' :: 'v' :: '=' :: (D ++ O)) = some (D, O)
  simp only [qv14M]
  rw [if_pos ⟨trivial, trivial, trivial, by rw [hT]; exact hlen, by rw [hT]; exact hd⟩,
    hT, hDr]

theorem qv14_out_take (V : List Char) :
    ∀ (n : Nat) (u : List Char), u.length ≤ n → ∀ (k : Nat),
      ((gsub qv14M (fun _ => qvRepl V) u).1.take k).length = k →
      ((gsub qv14M (fun _ => qvRepl V) u).1.take k).all Char.isDigit = true →
      (u.take k).length = k ∧ (u.take k).all Char.isDigit = true := by
  intro n
  induction n with
  | zero =>
    intro u hu k h1 h2
    have hun : u = [] := List.eq_nil_of_length_eq_zero (Nat.le_zero.mp hu)
    subst hun
    simp only [gsub_nil] at h1
    simp only [List.take_nil, List.length_nil] at h1 ⊢
    simp [← h1]
  | succ n ih =>
    intro u hu k h1 h2
    cases u with
    | nil =>
      simp only [gsub_nil] at h1
      simp only [List.take_nil, List.length_nil] at h1 ⊢
      simp [← h1]
    | cons c cs =>
      cases hmc : qv14M (c :: cs) with
      | some xr =>
        obtain ⟨x, r⟩ := xr
        rw [gsub_cons_some qv14M_lt hmc] at h1 h2
        cases k with
        | zero => simp
        | succ k' =>
          exfalso
          simp only [qvRepl, List.cons_append, List.take_succ_cons,
            List.all_cons, Bool.and_eq_true] at h2
          exact absurd h2.1 (by decide)
      | none =>
        rw [gsub_cons_none hmc] at h1 h2
        cases k with
        | zero => simp
        | succ k' =>
          simp only [List.take_succ_cons, List.length_cons, Nat.succ.injEq] at h1
          simp only [List.take_succ_cons, List.all_cons, Bool.and_eq_true] at h2
          have hres := ih cs (by simpa using hu) k' h1 h2.2
          refine ⟨?_, ?_⟩
          · simp only [List.take_succ_cons, List.length_cons, hres.1]
          · simp only [List.take_succ_cons, List.all_cons, Bool.and_eq_true]
            exact ⟨h2.1, hres.2⟩

theorem qv14_second_none (V : List Char) : ∀ (c : Char) (cs : List Char),
    qv14M (c :: cs) = none →
    qv14M (c :: (gsub qv14M (fun _ => qvRepl V) cs).1) = none := by
  intro c cs h
  by_cases hc : c = '?'
  case neg => exact qv14M_none_head _ _ hc
  subst hc
  cases cs with
  | nil => rfl
  | cons e cs' =>
    cases hm1 : qv14M (e :: cs') with
    | some xr =>
      obtain ⟨x, r⟩ := xr
      rw [gsub_cons_some qv14M_lt hm1]
      show qv14M ('?' :: '?' :: 'v' :: '=' ::
        (V ++ (gsub qv14M (fun _ => qvRepl V) r).1)) = none
      exact qv14M_none₂ _ _ _ (by decide)
    | none =>
      rw [gsub_cons_none hm1]
      by_cases he : e = 'v'
      case neg => exact qv14M_none₂ _ _ _ he
      subst he
      cases cs' with
      | nil => rfl
      | cons e' cs'' =>
        cases hm2 : qv14M (e' :: cs'') with
        | some xr =>
          obtain ⟨x, r⟩ := xr
          rw [gsub_cons_some qv14M_lt hm2]
          show qv14M ('?' :: 'v' :: '?' :: 'v' :: '=' ::
            (V ++ (gsub qv14M (fun _ => qvRepl V) r).1)) = none
          exact qv14M_none₃ _ _ _ _ (by decide)
        | none =>
          rw [gsub_cons_none hm2]
          by_cases he' : e' = '='
          case neg => exact qv14M_none₃ _ _ _ _ he'
          subst he'
          have hni := qv14M_none_digits_inv cs'' h
          apply qv14M_none_digits
          intro hcontra
          exact hni (qv14_out_take V cs''.length cs'' (le_refl _) 14 hcontra.1 hcontra.2)

theorem VERSION_PATTERN_sub_fix_aux (V : List Char) (hne : V ≠ [])
    (hva : V.all vchar = true) :
    ∀ (n : Nat) (s : List Char), s.length ≤ n →
      gsub qvM (fun _ => qvRepl V) ((gsub qvM (fun _ => qvRepl V) s).1) =
        gsub qvM (fun _ => qvRepl V) s := by
  intro n
  induction n with
  | zero =>
    intro s h
    have hs : s = [] := List.eq_nil_of_length_eq_zero (Nat.le_zero.mp h)
    subst hs
    rfl
  | succ n ih =>
    intro s hlen
    cases s with
    | nil => rfl
    | cons c cs =>
      cases hmc : qvM (c :: cs) with
      | none =>
        rw [gsub_cons_none hmc]
        have h2 : qvM (c :: (gsub qvM (fun _ => qvRepl V) cs).1) = none :=
          qv_second_none V c cs hmc
        rw [gsub_cons_none h2, ih cs (by simpa using hlen)]
      | some xr =>
        obtain ⟨x, r⟩ := xr
        have hr : r.length ≤ n := by
          have h1 := qvM_lt _ _ _ hmc
          have h2 : cs.length ≤ n := by simpa using hlen
          simp only [List.length_cons] at h1
          omega
        rw [gsub_cons_some qvM_lt hmc]
        have hpost := qvM_post _ _ _ hmc
        have hO : (gsub qvM (fun _ => qvRepl V) r).1 = [] ∨
            ∃ g gs, (gsub qvM (fun _ => qvRepl V) r).1 = g :: gs ∧ vchar g = false := by
          rcases hpost.2.2 with hr0 | ⟨g, gs, hr1, hg⟩
          · left; rw [hr0]; rfl
          · right
            have hgq : g ≠ '?' := by
              intro hgg
              rw [hgg] at hg
              exact absurd hg (by decide)
            refine ⟨g, (gsub qvM (fun _ => qvRepl V) gs).1, ?_, hg⟩
            rw [hr1, gsub_cons_none (qvM_none_head _ _ hgq)]
        have hAt : qvM ('?' :: 'v' :: '=' ::
            (V ++ (gsub qvM (fun _ => qvRepl V) r).1)) =
            some (V, (gsub qvM (fun _ => qvRepl V) r).1) :=
          qvM_at_repl V _ hva hne hO
        show gsub qvM (fun _ => qvRepl V)
            ('?' :: 'v' :: '=' :: (V ++ (gsub qvM (fun _ => qvRepl V) r).1)) = _
        rw [gsub_cons_some qvM_lt hAt, ih r hr]
      
theorem qv14_sub_fix_aux (D : List Char) (hlen14 : D.length = 14)
    (hd : D.all Char.isDigit = true) :
    ∀ (n : Nat) (s : List Char), s.length ≤ n →
      gsub qv14M (fun _ => qvRepl D) ((gsub qv14M (fun _ => qvRepl D) s).1) =
        gsub qv14M (fun _ => qvRepl D) s := by
  intro n
  induction n with
  | zero =>
    intro s h
    have hs : s = [] := List.eq_nil_of_length_eq_zero (Nat.le_zero.mp h)
    subst hs
    rfl
  | succ n ih =>
    intro s hlen
    cases s with
    | nil => rfl
    | cons c cs =>
      cases hmc : qv14M (c :: cs) with
      | none =>
        rw [gsub_cons_none hmc]
        have h2 : qv14M (c :: (gsub qv14M (fun _ => qvRepl D) cs).1) = none :=
          qv14_second_none D c cs hmc
        rw [gsub_cons_none h2, ih cs (by simpa using hlen)]
      | some xr =>
        obtain ⟨x, r⟩ := xr
        have hr : r.length ≤ n := by
          have h1 := qv14M_lt _ _ _ hmc
          have h2 : cs.length ≤ n := by simpa using hlen
          simp only [List.length_cons] at h1
          omega
        rw [gsub_cons_some qv14M_lt hmc]
        have hAt : qv14M ('?' :: 'v' :: '=' ::
            (D ++ (gsub qv14M (fun _ => qvRepl D) r).1)) =
            some (D, (gsub qv14M (fun _ => qvRepl D) r).1) :=
          qv14_at_repl D _ hlen14 hd
        show gsub qv14M (fun _ => qvRepl D)
            ('?' :: 'v' :: '=' :: (D ++ (gsub qv14M (fun _ => qvRepl D) r).1)) = _
        rw [gsub_cons_some qv14M_lt hAt, ih r hr]

-- Literal-prefix stripping, used to model the fixed parts of the
-- cache-name and VERSION-constant regexes.

def stripLit : List Char → List Char → Option (List Char)
  | [], s => some s
  | _ :: _, [] => none
  | l :: ls, c :: cs => if c = l then stripLit ls cs else none

theorem stripLit_append : ∀ lit s r, stripLit lit s = some r → s = lit ++ r := by
  intro lit
  induction lit with
  | nil =>
    intro s r h
    simp only [stripLit, Option.some.injEq] at h
    subst h
    rfl
  | cons l ls ih =>
    intro s r h
    cases s with
    | nil => exact absurd h (by simp [stripLit])
    | cons c cs =>
      simp only [stripLit] at h
      split at h
      · rename_i hc
        subst hc
        rw [List.cons_append, ih cs r h]
      · exact Option.noConfusion h

theorem lt_of_text {M : Type} (m : List Char → Option (M × List Char))
    (text : M → List Char)
    (htext : ∀ s x r, m s = some (x, r) → s = text x ++ r)
    (hne : ∀ x, text x ≠ []) :
    ∀ s x r, m s = some (x, r) → r.length < s.length := by
  intro s x r h
  rw [htext s x r h]
  cases htx : text x with
  | nil => exact absurd htx (hne x)
  | cons a t =>
    simp only [List.cons_append, List.length_cons, List.length_append]
    omega

-- SW_CACHE_PATTERN of update_versions.py line 30: the literal CACHE_NAME,
-- optional whitespace, an equals sign, optional whitespace, a quote, the
-- literal paddle-mexican-v, one or more digits (captured), a quote.  The
-- two quotes are matched independently, as in the regex.

structure SwM where
  ws1 : List Char
  ws2 : List Char
  q1 : Char
  ds : List Char
  q2 : Char
deriving DecidableEq

def swM (s : List Char) : Option (SwM × List Char) :=
  match stripLit ("CACHE_NAME".data) s with
  | none => none
  | some s1 =>
    match s1.dropWhile isWs with
    | a :: s2 =>
      if a = '=' then
        match s2.dropWhile isWs with
        | q1 :: s3 =>
          if isQuote q1 = true then
            match stripLit ("paddle-mexican-v".data) s3 with
            | none => none
            | some s4 =>
              match s4.dropWhile Char.isDigit with
              | q2 :: s5 =>
                if s4.takeWhile Char.isDigit ≠ [] ∧ isQuote q2 = true then
                  some (⟨s1.takeWhile isWs, s2.takeWhile isWs, q1,
                    s4.takeWhile Char.isDigit, q2⟩, s5)
                else none
              | [] => none
          else none
        | [] => none
      else none
    | [] => none

/-- Matched text of a cache-name occurrence. -/
def swText (x : SwM) : List Char :=
  "CACHE_NAME".data ++ x.ws1 ++ '=' ::
    (x.ws2 ++ x.q1 :: ("paddle-mexican-v".data ++ x.ds ++ [x.q2]))

theorem swM_text : ∀ s x r, swM s = some (x, r) → s = swText x ++ r := by
  intro s x r h
  unfold swM at h
  split at h
  · exact Option.noConfusion h
  rename_i s1 h1
  split at h
  case h_2 => exact Option.noConfusion h
  rename_i a s2 h2
  split at h
  case isFalse => exact Option.noConfusion h
  rename_i ha
  subst ha
  split at h
  case h_2 => exact Option.noConfusion h
  rename_i q1 s3 h3
  split at h
  case isFalse => exact Option.noConfusion h
  rename_i hq1
  split at h
  · exact Option.noConfusion h
  rename_i s4 h4
  split at h
  case h_2 => exact Option.noConfusion h
  rename_i q2 s5 h5
  split at h
  case isFalse => exact Option.noConfusion h
  rename_i hds
  injection h with h
  injection h with hx hr
  subst hx
  subst hr
  have e1 := stripLit_append _ _ _ h1
  have e2 : s1 = s1.takeWhile isWs ++ ('=' :: s2) := by
    conv_lhs => rw [← List.takeWhile_append_dropWhile (p := isWs) (l := s1)]
    rw [h2]
  have e3 : s2 = s2.takeWhile isWs ++ (q1 :: s3) := by
    conv_lhs => rw [← List.takeWhile_append_dropWhile (p := isWs) (l := s2)]
    rw [h3]
  have e4 := stripLit_append _ _ _ h4
  have e5 : s4 = s4.takeWhile Char.isDigit ++ (q2 :: s5) := by
    conv_lhs => rw [← List.takeWhile_append_dropWhile (p := Char.isDigit) (l := s4)]
    rw [h5]
  conv_lhs => rw [e1, e2, e3, e4, e5]
  simp [swText, List.append_assoc]

theorem swText_ne : ∀ x, swText x ≠ [] := by
  intro x h
  have hlen := congrArg List.length h
  simp [swText, List.length_append] at hlen

theorem swM_lt : ∀ s x r, swM s = some (x, r) → r.length < s.length :=
  lt_of_text swM swText swM_text swText_ne

-- The cache-name pattern of bump-version.py line 39: group 1 is the literal
-- const CACHE_NAME = followed by a quote, group 2 the digits, group 3 a
-- quote followed by a semicolon.  The quotes are captured, so the
-- backreference replacement preserves them.

structure ConstM where
  q1 : Char
  ds : List Char
  q2 : Char
deriving DecidableEq

def constM (s : List Char) : Option (ConstM × List Char) :=
  match stripLit ("const CACHE_NAME = ".data) s with
  | none => none
  | some s1 =>
    match s1 with
    | q1 :: s2 =>
      if isQuote q1 = true then
        match stripLit ("padel-mexicano-v".data) s2 with
        | none => none
        | some s3 =>
          match s3.dropWhile Char.isDigit with
          | q2 :: s4 =>
            if s3.takeWhile Char.isDigit ≠ [] ∧ isQuote q2 = true then
              match s4 with
              | c :: s5 =>
                if c = ';' then some (⟨q1, s3.takeWhile Char.isDigit, q2⟩, s5)
                else none
              | [] => none
            else none
          | [] => none
      else none
    | [] => none

/-- Matched text of a const CACHE_NAME occurrence: groups 1, 2 and 3. -/
def constText (x : ConstM) : List Char :=
  "const CACHE_NAME = ".data ++ x.q1 ::
    ("padel-mexicano-v".data ++ x.ds ++ x.q2 :: [';'])

/-- Replacement of one occurrence with backreferences to groups 1 and 3 and
a fresh digit string (bump-version.py line 52). -/
def constRebuild (newDs : List Char) (x : ConstM) : List Char :=
  "const CACHE_NAME = ".data ++ x.q1 ::
    ("padel-mexicano-v".data ++ newDs ++ x.q2 :: [';'])

theorem constM_text : ∀ s x r, constM s = some (x, r) → s = constText x ++ r := by
  intro s x r h
  unfold constM at h
  split at h
  · exact Option.noConfusion h
  rename_i s1 h1
  split at h
  case h_2 => exact Option.noConfusion h
  rename_i q1 s2
  split at h
  case isFalse => exact Option.noConfusion h
  rename_i hq1
  split at h
  · exact Option.noConfusion h
  rename_i s3 h3
  split at h
  case h_2 => exact Option.noConfusion h
  rename_i q2 s4 h4
  split at h
  case isFalse => exact Option.noConfusion h
  rename_i hds
  split at h
  case h_2 => exact Option.noConfusion h
  rename_i c s5
  split at h
  case isFalse => exact Option.noConfusion h
  rename_i hc
  subst hc
  injection h with h
  injection h with hx hr
  subst hx
  subst hr
  have e1 := stripLit_append _ _ _ h1
  have e3 := stripLit_append _ _ _ h3
  have e4 : s3 = s3.takeWhile Char.isDigit ++ (q2 :: ';' :: s5) := by
    conv_lhs => rw [← List.takeWhile_append_dropWhile (p := Char.isDigit) (l := s3)]
    rw [h4]
  conv_lhs => rw [e1, e3, e4]
  simp [constText, List.append_assoc]

theorem constText_ne : ∀ x, constText x ≠ [] := by
  intro x h
  have hlen := congrArg List.length h
  simp [constText, List.length_append] at hlen

theorem constM_lt : ∀ s x r, constM s = some (x, r) → r.length < s.length :=
  lt_of_text constM constText constM_text constText_ne

/-- Captured data of a const CACHE_NAME occurrence. -/
theorem constM_post : ∀ s x r, constM s = some (x, r) →
    isQuote x.q1 = true ∧ x.ds ≠ [] ∧ x.ds.all Char.isDigit = true ∧
      isQuote x.q2 = true := by
  intro s x r h
  unfold constM at h
  split at h
  · exact Option.noConfusion h
  rename_i s1 h1
  split at h
  case h_2 => exact Option.noConfusion h
  rename_i q1 s2
  split at h
  case isFalse => exact Option.noConfusion h
  rename_i hq1
  split at h
  · exact Option.noConfusion h
  rename_i s3 h3
  split at h
  case h_2 => exact Option.noConfusion h
  rename_i q2 s4 h4
  split at h
  case isFalse => exact Option.noConfusion h
  rename_i hds
  split at h
  case h_2 => exact Option.noConfusion h
  rename_i c s5
  split at h
  case isFalse => exact Option.noConfusion h
  injection h with h
  injection h with hx hr
  subst hx
  exact ⟨hq1, hds.1, all_takeWhile Char.isDigit s3, hds.2⟩

-- The VERSION constant pattern of bump-version.py line 81: group 1 is the
-- literal const VERSION = followed by a quote, group 2 exactly fourteen
-- digits, group 3 a quote followed by a semicolon.

structure VerM where
  q1 : Char
  ds : List Char
  q2 : Char
deriving DecidableEq

def verM (s : List Char) : Option (VerM × List Char) :=
  match stripLit ("const VERSION = ".data) s with
  | none => none
  | some s1 =>
    match s1 with
    | q1 :: s2 =>
      if isQuote q1 = true then
        if (s2.take 14).length = 14 ∧ (s2.take 14).all Char.isDigit = true then
          match s2.drop 14 with
          | q2 :: s3 =>
            if isQuote q2 = true then
              match s3 with
              | c :: s4 =>
                if c = ';' then some (⟨q1, s2.take 14, q2⟩, s4) else none
              | [] => none
            else none
          | [] => none
        else none
      else none
    | [] => none

/-- Matched text of a const VERSION occurrence: groups 1, 2 and 3. -/
def verText (x : VerM) : List Char :=
  "const VERSION = ".data ++ x.q1 :: (x.ds ++ x.q2 :: [';'])

/-- Replacement of one occurrence: groups 1 and 3 kept by backreference,
the digits replaced with the new version (bump-version.py line 87). -/
def verRebuild (newV : List Char) (x : VerM) : List Char :=
  "const VERSION = ".data ++ x.q1 :: (newV ++ x.q2 :: [';'])

theorem verM_text : ∀ s x r, verM s = some (x, r) → s = verText x ++ r := by
  intro s x r h
  unfold verM at h
  split at h
  · exact Option.noConfusion h
  rename_i s1 h1
  split at h
  case h_2 => exact Option.noConfusion h
  rename_i q1 s2
  split at h
  case isFalse => exact Option.noConfusion h
  rename_i hq1
  split at h
  case isFalse => exact Option.noConfusion h
  rename_i hd
  split at h
  case h_2 => exact Option.noConfusion h
  rename_i q2 s3 h3
  split at h
  case isFalse => exact Option.noConfusion h
  rename_i hq2
  split at h
  case h_2 => exact Option.noConfusion h
  rename_i c s4
  split at h
  case isFalse => exact Option.noConfusion h
  rename_i hc
  subst hc
  injection h with h
  injection h with hx hr
  subst hx
  subst hr
  have e1 := stripLit_append _ _ _ h1
  have e2 : s2 = s2.take 14 ++ (q2 :: ';' :: s4) := by
    conv_lhs => rw [← List.take_append_drop 14 s2]
    rw [h3]
  conv_lhs => rw [e1, e2]
  simp [verText, List.append_assoc]

theorem verText_ne : ∀ x, verText x ≠ [] := by
  intro x h
  have hlen := congrArg List.length h
  simp [verText, List.length_append] at hlen

theorem verM_lt : ∀ s x r, verM s = some (x, r) → r.length < s.length :=
  lt_of_text verM verText verM_text verText_ne

/-- Captured data of a const VERSION occurrence. -/
theorem verM_post : ∀ s x r, verM s = some (x, r) →
    isQuote x.q1 = true ∧ x.ds.length = 14 ∧ x.ds.all Char.isDigit = true ∧
      isQuote x.q2 = true := by
  intro s x r h
  unfold verM at h
  split at h
  · exact Option.noConfusion h
  rename_i s1 h1
  split at h
  case h_2 => exact Option.noConfusion h
  rename_i q1 s2
  split at h
  case isFalse => exact Option.noConfusion h
  rename_i hq1
  split at h
  case isFalse => exact Option.noConfusion h
  rename_i hd
  split at h
  case h_2 => exact Option.noConfusion h
  rename_i q2 s3 h3
  split at h
  case isFalse => exact Option.noConfusion h
  rename_i hq2
  split at h
  case h_2 => exact Option.noConfusion h
  rename_i c s4
  split at h
  case isFalse => exact Option.noConfusion h
  injection h with h
  injection h with hx hr
  subst hx
  exact ⟨hq1, hd.1, hd.2, hq2⟩

-- Digit-string conversions: int(...) on a captured group, and the decimal
-- rendering of a number interpolated into a replacement f-string.

def digitsToNat (ds : List Char) : Nat :=
  ds.foldl (fun a c => a * 10 + (c.toNat - 48)) 0

def digitChar (n : Nat) : Char := Char.ofNat (48 + n)

def natDigitsAux : Nat → Nat → List Char
  | 0, _ => []
  | fuel + 1, n =>
    if n < 10 then [digitChar n]
    else natDigitsAux fuel (n / 10) ++ [digitChar (n % 10)]

/-- Decimal rendering of a natural number (one or more digits). -/
def natDigits (n : Nat) : List Char := natDigitsAux (n + 1) n

-- update_versions.py line 54: update_versions_in_file.  The first component
-- models the on-disk content after the call (none when the read failed);
-- the second is the returned count.

def update_versions_in_file (content : Option (List Char)) (newV : List Char)
    (dry : Bool) : Option (List Char) × Nat :=
  match content with
  | none => (none, 0)
  | some c =>
    if (VERSION_PATTERN_sub newV c).2 = 0 then (some c, 0)
    else if dry then (some c, (VERSION_PATTERN_sub newV c).2)
    else (some (VERSION_PATTERN_sub newV c).1, (VERSION_PATTERN_sub newV c).2)

-- update_versions.py line 88: update_sw_cache_version.  The replacement is
-- the fixed normalized f-string CACHE_NAME = quote paddle-mexican-v new
-- quote, with single quotes and single spaces, applied to every match.

def swRepl (n : Nat) : List Char :=
  "CACHE_NAME = ".data ++ squote :: ("paddle-mexican-v".data ++ natDigits n ++ [squote])

def update_sw_cache_version (content : Option (List Char)) (dry : Bool) :
    Option (List Char) × Bool :=
  match content with
  | none => (none, false)
  | some c =>
    match gfind swM c with
    | none => (some c, false)
    | some x =>
      if dry then (some c, true)
      else (some (gsub swM (fun _ => swRepl (digitsToNat x.ds + 1)) c).1, true)

-- bump-version.py line 25: increment_cache_version.  The new number comes
-- from the first match; the substitution rewrites every match, keeping each
-- match's own quotes through the group backreferences.

def increment_cache_version (content : List Char) : List Char × Option (Nat × Nat) :=
  match gfind constM content with
  | none => (content, none)
  | some x =>
    ((gsub constM (constRebuild (natDigits (digitsToNat x.ds + 1))) content).1,
      some (digitsToNat x.ds, digitsToNat x.ds + 1))

-- bump-version.py line 57: update_version_in_file.  content models the
-- on-disk state (none = missing file); the result carries the on-disk state
-- after the call, the replacement count, the found version and whether the
-- file-not-found warning was printed.

structure FileResult where
  content : Option (List Char)
  count : Nat
  found : Option (List Char)
  warned : Bool
deriving DecidableEq

def update_version_in_file (isSw : Bool) (disk : Option (List Char))
    (old : Option (List Char)) (newV : List Char) : FileResult :=
  match disk with
  | none => ⟨none, 0, none, true⟩
  | some content =>
    if isSw then
      match gfind verM content with
      | some x =>
        ⟨some (gsub verM (verRebuild newV) content).1, 1,
          if old = none then some x.ds else old, false⟩
      | none =>
        ⟨some (if (qv14_sub newV content).2 = 0 then content
            else (qv14_sub newV content).1),
          (qv14_sub newV content).2,
          if old = none then gfind qv14M content else old, false⟩
    else
      ⟨some (if (qv14_sub newV content).2 = 0 then content
          else (qv14_sub newV content).1),
        (qv14_sub newV content).2,
        if old = none then gfind qv14M content else old, false⟩

-- bump-version.py lines 142 to 151: the per-file loop of main.  The first
-- flag of each entry says whether the file is named sw.js.

structure LoopResult where
  old : Option (List Char)
  total : Nat
  outputs : List (Option (List Char))
deriving DecidableEq

def bump_main_loop (newV : List Char) :
    List (Bool × Option (List Char)) → Option (List Char) → Nat → LoopResult
  | [], old, total => ⟨old, total, []⟩
  | (b, d) :: fs, old, total =>
    let r := update_version_in_file b d old newV
    let old2 := if 0 < r.count ∧ old = none ∧ r.found ≠ none then r.found else old
    let rest := bump_main_loop newV fs old2 (total + r.count)
    ⟨rest.old, rest.total, r.content :: rest.outputs⟩

/-- Spec-worded definition used by claim C4 as the refinement target: the
version token of the first match occurring in a file, using the VERSION
constant of sw.js when present and the fourteen-digit query-string pattern
otherwise; nothing for a missing file. -/
def file_first_token_spec (isSw : Bool) (disk : Option (List Char)) :
    Option (List Char) :=
  match disk with
  | none => none
  | some c =>
    if isSw then
      match gfind verM c with
      | some x => some x.ds
      | none => gfind qv14M c
    else gfind qv14M c

/-- Spec-worded definition used by claim C4: the token of the first match
found in the first file that contains any match. -/
def reported_old_version_spec : List (Bool × Option (List Char)) → Option (List Char)
  | [] => none
  | (b, d) :: fs =>
    match file_first_token_spec b d with
    | some t => some t
    | none => reported_old_version_spec fs

-- update_versions.py lines 20 to 51 and 128 to 161: the directory scan.
-- A directory tree is a name, a list of files (name and content) and a list
-- of subdirectories; paths are lists of components (dirpath.split(os.sep)).
-- The walk carries a fuel bound on the recursion depth, as os.walk's
-- recursion is bounded by the (finite) depth of the tree; every theorem
-- below holds for every fuel value it mentions.

def EXTENSIONS : List (List Char) :=
  [".html".data, ".js".data, ".css".data, ".md".data]

def EXCLUDE_DIRS : List (List Char) :=
  [".git".data, "node_modules".data, "__pycache__".data, ".venv".data,
    "venv".data, "lib".data]

def should_process_file (name : List Char) : Bool :=
  EXTENSIONS.any (fun e => e.isSuffixOf name)

def should_exclude_dir (parts : List (List Char)) : Bool :=
  EXCLUDE_DIRS.any (fun e => parts.contains e)

inductive Dir where
  | mk (name : List Char) (files : List (List Char × List Char)) (subdirs : List Dir)

def Dir.name : Dir → List Char
  | .mk n _ _ => n

def Dir.files : Dir → List (List Char × List Char)
  | .mk _ f _ => f

def Dir.subdirs : Dir → List Dir
  | .mk _ _ s => s

/-- Counters of one run: files modified, total version strings updated, and
the replacement token used at each modified file (for auditing that every
file gets the same new version). -/
structure ScanStats where
  files : Nat
  updates : Nat
  toks : List (List Char)
deriving DecidableEq

def ScanStats.add (a b : ScanStats) : ScanStats :=
  ⟨a.files + b.files, a.updates + b.updates, a.toks ++ b.toks⟩

/-- The filename loop of update_versions, lines 141 to 148. -/
def processDirFiles (newV : List Char) (dry : Bool) :
    List (List Char × List Char) → List (List Char × List Char) × ScanStats
  | [] => ([], ⟨0, 0, []⟩)
  | (n, c) :: fs =>
    let rest := processDirFiles newV dry fs
    if should_process_file n then
      let r := update_versions_in_file (some c) newV dry
      if 0 < r.2 then
        ((n, r.1.getD c) :: rest.1,
          ⟨rest.2.files + 1, rest.2.updates + r.2, newV :: rest.2.toks⟩)
      else ((n, r.1.getD c) :: rest.1, rest.2)
    else ((n, c) :: rest.1, rest.2)

/-- The os.walk loop of update_versions, lines 137 to 148: process the files
of the current directory, prune excluded subdirectories (they are returned
untouched), recurse into the others. -/
def walkDir (newV : List Char) (dry : Bool) :
    Nat → List (List Char) → Dir → Dir × ScanStats
  | 0, _, d => (d, ⟨0, 0, []⟩)
  | fuel + 1, path, Dir.mk n fs subs =>
    let p := path ++ [n]
    let fr := processDirFiles newV dry fs
    let rs := subs.map (fun d =>
      if should_exclude_dir (p ++ [d.name]) then (d, (⟨0, 0, []⟩ : ScanStats))
      else walkDir newV dry fuel p d)
    (Dir.mk n fr.1 (rs.map Prod.fst),
      (rs.map Prod.snd).foldl ScanStats.add fr.2)

def findFile : List (List Char × List Char) → List Char → Option (List Char)
  | [], _ => none
  | (n, c) :: fs, name => if n = name then some c else findFile fs name

def setFile : List (List Char × List Char) → List Char → List Char →
    List (List Char × List Char)
  | [], _, _ => []
  | (n, c) :: fs, name, c2 =>
    if n = name then (n, c2) :: fs else (n, c) :: setFile fs name c2

/-- update_versions.py lines 128 to 161: the whole run, walking the tree and
then bumping the service-worker cache version of a root-level sw.js. -/
def update_versions (fuel : Nat) (root : Dir) (newV : List Char) (dry : Bool) :
    Dir × ScanStats × Bool :=
  let w := walkDir newV dry fuel [] root
  match findFile w.1.files ("sw.js".data) with
  | none => (w.1, w.2, false)
  | some c =>
    let r := update_sw_cache_version (some c) dry
    (Dir.mk w.1.name (setFile w.1.files ("sw.js".data) (r.1.getD c)) w.1.subdirs,
      w.2, r.2)

-- Claim theorems.

/-- Claim C1: for every input content with N occurrences of the
version-marker pattern, the pattern-based replacer
(update_versions_in_file, and the query-string branch of
update_version_in_file) replaces exactly the N occurrences by the new
version token and keeps every non-matching character byte-identical (the
input and output interleave the same unmatched gaps); with no occurrence
the returned content equals the input and the count is zero. -/
theorem claim_C1 (content newV : List Char) :
    (∃ (pieces : List (List Char × List Char)) (tail : List Char),
        content = glue (pieces.map (fun p => (p.1, qvRepl p.2))) tail ∧
        (VERSION_PATTERN_sub newV content).1 =
          glue (pieces.map (fun p => (p.1, qvRepl newV))) tail ∧
        (VERSION_PATTERN_sub newV content).2 = pieces.length ∧
        ∀ p ∈ pieces, p.2 ≠ [] ∧ p.2.all vchar = true) ∧
    ((VERSION_PATTERN_sub newV content).2 = 0 →
      (VERSION_PATTERN_sub newV content).1 = content) ∧
    update_versions_in_file (some content) newV false =
      (some (VERSION_PATTERN_sub newV content).1,
        (VERSION_PATTERN_sub newV content).2) ∧
    (∃ (pieces : List (List Char × List Char)) (tail : List Char),
        content = glue (pieces.map (fun p => (p.1, qvRepl p.2))) tail ∧
        (qv14_sub newV content).1 =
          glue (pieces.map (fun p => (p.1, qvRepl newV))) tail ∧
        (qv14_sub newV content).2 = pieces.length ∧
        ∀ p ∈ pieces, p.2.length = 14 ∧ p.2.all Char.isDigit = true) ∧
    ((qv14_sub newV content).2 = 0 → (qv14_sub newV content).1 = content) ∧
    (update_version_in_file false (some content) none newV).count =
      (qv14_sub newV content).2 ∧
    (update_version_in_file false (some content) none newV).content =
      some (qv14_sub newV content).1 := by
  have hz1 : (VERSION_PATTERN_sub newV content).2 = 0 →
      (VERSION_PATTERN_sub newV content).1 = content := by
    intro h
    exact gsub_count_zero qvM_lt content.length content (le_refl _) h
  have hz2 : (qv14_sub newV content).2 = 0 →
      (qv14_sub newV content).1 = content := by
    intro h
    exact gsub_count_zero qv14M_lt content.length content (le_refl _) h
  refine ⟨?_, hz1, ?_, ?_, hz2, ?_, ?_⟩
  · obtain ⟨pieces, tail, e1, e2, e3, e4, -⟩ :=
      gsub_decomposition qvM (fun _ => qvRepl newV) qvM_lt qvRepl qvM_text content
    refine ⟨pieces, tail, e1, e2, e3, ?_⟩
    intro p hp
    obtain ⟨s1, r1, hmm⟩ := e4 p hp
    have hpost := qvM_post _ _ _ hmm
    exact ⟨hpost.1, hpost.2.1⟩
  · by_cases h : (VERSION_PATTERN_sub newV content).2 = 0
    · simp [update_versions_in_file, h, hz1 h]
    · simp [update_versions_in_file, h]
  · obtain ⟨pieces, tail, e1, e2, e3, e4, -⟩ :=
      gsub_decomposition qv14M (fun _ => qvRepl newV) qv14M_lt qvRepl qv14M_text content
    refine ⟨pieces, tail, e1, e2, e3, ?_⟩
    intro p hp
    obtain ⟨s1, r1, hmm⟩ := e4 p hp
    exact qv14M_post _ _ _ hmm
  · simp [update_version_in_file]
  · by_cases h : (qv14_sub newV content).2 = 0
    · simp [update_version_in_file, h, hz2 h]
    · simp [update_version_in_file, h]

/-- Claim C1, witness: the no-occurrence conjuncts applied at a concrete
input with no version marker. -/
theorem claim_C1_witness :
    (VERSION_PATTERN_sub "X".data "hello world".data).2 = 0 ∧
    (VERSION_PATTERN_sub "X".data "hello world".data).1 = "hello world".data :=
  ⟨by decide, (claim_C1 "hello world".data "X".data).2.1 (by decide)⟩

/-- Claim C3: applying the version rewrite with a well-formed token of the
variant's shape (any nonempty terminator-free token for VERSION_PATTERN, a
fourteen-digit timestamp for the fixed-width variant) is idempotent: the
second application returns the same content and the same match count, so
each original occurrence site holds exactly one marker. -/
theorem claim_C3 (V D s : List Char) (hV1 : V ≠ []) (hV2 : V.all vchar = true)
    (hD1 : D.length = 14) (hD2 : D.all Char.isDigit = true) :
    VERSION_PATTERN_sub V ((VERSION_PATTERN_sub V s).1) =
      VERSION_PATTERN_sub V s ∧
    qv14_sub D ((qv14_sub D s).1) = qv14_sub D s := by
  constructor
  · exact VERSION_PATTERN_sub_fix_aux V hV1 hV2 s.length s (le_refl _)
  · exact qv14_sub_fix_aux D hD1 hD2 s.length s (le_refl _)

/-- Claim C3, witness: idempotence at a concrete content with two markers,
with the timestamp token 20250101000000. -/
theorem claim_C3_witness :
    VERSION_PATTERN_sub "20250101000000".data
        ((VERSION_PATTERN_sub "20250101000000".data
          "a.js?v=1 b.css?v=abc".data).1) =
      VERSION_PATTERN_sub "20250101000000".data "a.js?v=1 b.css?v=abc".data ∧
    qv14_sub "20250101000000".data
        ((qv14_sub "20250101000000".data
          "x.html?v=20240101010101 end".data).1) =
      qv14_sub "20250101000000".data "x.html?v=20240101010101 end".data :=
  ⟨(claim_C3 "20250101000000".data "20250101000000".data
      "a.js?v=1 b.css?v=abc".data (by decide) (by decide) (by decide)
      (by decide)).1,
    (claim_C3 "20250101000000".data "20250101000000".data
      "x.html?v=20240101010101 end".data (by decide) (by decide) (by decide)
      (by decide)).2⟩

/-- Claim C2, counterexample: on a service-worker content using double
quotes, update_sw_cache_version does increment v7 to v8 but rewrites the
assignment with single quotes, so the surrounding quote syntax is not
preserved exactly as the claim states. -/
theorem claim_C2_counterexample :
    update_sw_cache_version
        (some "CACHE_NAME = \x22paddle-mexican-v7\x22".data) false =
      (some "CACHE_NAME = \x27paddle-mexican-v8\x27".data, true) ∧
    dquote ∈ "CACHE_NAME = \x22paddle-mexican-v7\x22".data ∧
    dquote ∉ "CACHE_NAME = \x27paddle-mexican-v8\x27".data := by
  refine ⟨by decide, by decide, by decide⟩

/-- Claim C2 (amended): for every service-worker content, if no cache-name
literal is present both incrementers return the content unchanged and
signal not-found, not an error; if one is present with integer suffix n,
the output contains the literal with suffix n+1.  increment_cache_version
(bump-version.py) preserves each match's prefix and quote characters
exactly through group backreferences, while update_sw_cache_version
(update_versions.py) rewrites every matched assignment to the fixed
normalized form CACHE_NAME = quote paddle-mexican-v n+1 quote with single
quotes and single spaces, so its quote and spacing syntax is preserved only
when the input already has that form. -/
theorem claim_C2_amended :
    (∀ (c : List Char) (dry : Bool), gfind swM c = none →
      update_sw_cache_version (some c) dry = (some c, false)) ∧
    (∀ (c : List Char) (x : SwM), gfind swM c = some x →
      update_sw_cache_version (some c) false =
        (some (gsub swM (fun _ => swRepl (digitsToNat x.ds + 1)) c).1, true) ∧
      ∃ pre post, (gsub swM (fun _ => swRepl (digitsToNat x.ds + 1)) c).1 =
        pre ++ (swRepl (digitsToNat x.ds + 1) ++ post)) ∧
    (∀ c : List Char, gfind constM c = none →
      increment_cache_version c = (c, none)) ∧
    (∀ (c : List Char) (x : ConstM), gfind constM c = some x →
      (increment_cache_version c).2 =
        some (digitsToNat x.ds, digitsToNat x.ds + 1) ∧
      ∃ (pieces : List (List Char × ConstM)) (tail : List Char), pieces ≠ [] ∧
        c = glue (pieces.map (fun p => (p.1, constText p.2))) tail ∧
        (increment_cache_version c).1 =
          glue (pieces.map (fun p =>
            (p.1, constRebuild (natDigits (digitsToNat x.ds + 1)) p.2))) tail ∧
        ∀ p ∈ pieces, isQuote p.2.q1 = true ∧ isQuote p.2.q2 = true) := by
  refine ⟨?_, ?_, ?_, ?_⟩
  · intro c dry h
    simp [update_sw_cache_version, h]
  · intro c x h
    constructor
    · simp [update_sw_cache_version, h]
    · obtain ⟨pieces, tail, e1, e2, e3, e4, e5⟩ :=
        gsub_decomposition swM (fun _ => swRepl (digitsToNat x.ds + 1)) swM_lt
          swText swM_text c
      cases pieces with
      | nil => rw [h] at e5; simp at e5
      | cons q ps =>
        refine ⟨q.1, glue (ps.map (fun p =>
          (p.1, swRepl (digitsToNat x.ds + 1)))) tail, ?_⟩
        rw [e2]
        simp [glue]
  · intro c h
    simp [increment_cache_version, h]
  · intro c x h
    constructor
    · simp [increment_cache_version, h]
    · obtain ⟨pieces, tail, e1, e2, e3, e4, e5⟩ :=
        gsub_decomposition constM
          (constRebuild (natDigits (digitsToNat x.ds + 1))) constM_lt
          constText constM_text c
      refine ⟨pieces, tail, ?_, e1, ?_, ?_⟩
      · intro hnil
        rw [hnil, h] at e5
        simp at e5
      · rw [increment_cache_version, h]
        exact e2
      · intro p hp
        obtain ⟨s1, r1, hmm⟩ := e4 p hp
        have hpost := constM_post _ _ _ hmm
        exact ⟨hpost.1, hpost.2.2.2⟩

/-- Claim C2 (amended), witness: a concrete cache-name assignment with
suffix 7 rewritten by update_sw_cache_version, and a double-quoted
const CACHE_NAME assignment with suffix 9 incremented to 10 by
increment_cache_version. -/
theorem claim_C2_amended_witness :
    gfind swM ("x CACHE_NAME = \x27paddle-mexican-v7\x27 y".data) =
      some ⟨[' '], [' '], squote, ['7'], squote⟩ ∧
    update_sw_cache_version
        (some "x CACHE_NAME = \x27paddle-mexican-v7\x27 y".data) false =
      (some (gsub swM (fun _ => swRepl (digitsToNat ['7'] + 1))
        "x CACHE_NAME = \x27paddle-mexican-v7\x27 y".data).1, true) ∧
    gfind constM ("const CACHE_NAME = \x22padel-mexicano-v9\x22;".data) =
      some ⟨dquote, ['9'], dquote⟩ ∧
    (increment_cache_version
        "const CACHE_NAME = \x22padel-mexicano-v9\x22;".data).2 =
      some (9, 10) :=
  ⟨by decide,
    (claim_C2_amended.2.1 _ ⟨[' '], [' '], squote, ['7'], squote⟩ (by decide)).1,
    by decide,
    (claim_C2_amended.2.2.2 _ ⟨dquote, ['9'], dquote⟩ (by decide)).1⟩

theorem isQuote_ne_qm : ∀ c : Char, isQuote c = true → c ≠ '?' := by
  intro c h he
  subst he
  exact absurd h (by decide)

/-- No question mark occurs inside a matched const VERSION assignment, so
query-string markers lie entirely in the unmatched gaps, which the
substitution keeps byte-identical. -/
theorem verText_no_qm (y : VerM) (h1 : isQuote y.q1 = true)
    (h2 : y.ds.all Char.isDigit = true) (h3 : isQuote y.q2 = true) :
    '?' ∉ verText y := by
  intro hmem
  simp only [verText, List.mem_append, List.mem_cons, List.mem_singleton,
    List.not_mem_nil, or_false] at hmem
  rcases hmem with hlit | hq1 | hds | hq2 | hsemi
  · exact absurd hlit (by decide)
  · exact isQuote_ne_qm _ h1 hq1.symm
  · have := List.all_eq_true.mp h2 _ hds
    exact absurd this (by decide)
  · exact isQuote_ne_qm _ h3 hq2.symm
  · exact absurd hsemi (by decide)

/-- Claim C9: when sw.js contains the fourteen-digit VERSION constant,
update_version_in_file rewrites every occurrence of the constant pattern
(the decomposition below covers all of them) yet returns a count of exactly
one; no matched occurrence contains a question mark, so the query-string
markers of sw.js lie in gaps that stay byte-identical; the query-string
pattern is applied to sw.js only as a fallback when the constant is
absent. -/
theorem claim_C9 :
    (∀ (content : List Char) (old : Option (List Char)) (newV : List Char)
        (x : VerM), gfind verM content = some x →
      (update_version_in_file true (some content) old newV).count = 1 ∧
      (update_version_in_file true (some content) old newV).content =
        some (gsub verM (verRebuild newV) content).1 ∧
      ∃ (pieces : List (List Char × VerM)) (tail : List Char), pieces ≠ [] ∧
        content = glue (pieces.map (fun p => (p.1, verText p.2))) tail ∧
        (gsub verM (verRebuild newV) content).1 =
          glue (pieces.map (fun p => (p.1, verRebuild newV p.2))) tail ∧
        ∀ p ∈ pieces, '?' ∉ verText p.2) ∧
    (∀ (content : List Char) (old : Option (List Char)) (newV : List Char),
      gfind verM content = none →
      update_version_in_file true (some content) old newV =
        ⟨some (if (qv14_sub newV content).2 = 0 then content
            else (qv14_sub newV content).1),
          (qv14_sub newV content).2,
          if old = none then gfind qv14M content else old, false⟩) := by
  constructor
  · intro content old newV x h
    refine ⟨?_, ?_, ?_⟩
    · simp [update_version_in_file, h]
    · simp [update_version_in_file, h]
    · obtain ⟨pieces, tail, e1, e2, e3, e4, e5⟩ :=
        gsub_decomposition verM (verRebuild newV) verM_lt verText verM_text
          content
      refine ⟨pieces, tail, ?_, e1, e2, ?_⟩
      · intro hnil
        rw [hnil, h] at e5
        simp at e5
      · intro p hp
        obtain ⟨s1, r1, hmm⟩ := e4 p hp
        have hpost := verM_post _ _ _ hmm
        exact verText_no_qm p.2 hpost.1 hpost.2.2.1 hpost.2.2.2
  · intro content old newV h
    simp [update_version_in_file, h]

/-- Claim C9, witness: a service-worker content holding two VERSION
constants and a query-string marker; the count is one even though both
constants are rewritten. -/
theorem claim_C9_witness :
    gfind verM ("const VERSION = \x2711111111111111\x27; const VERSION = \x2722222222222222\x27; a.js?v=33333333333333".data) =
      some ⟨squote, "11111111111111".data, squote⟩ ∧
    (update_version_in_file true
      (some "const VERSION = \x2711111111111111\x27; const VERSION = \x2722222222222222\x27; a.js?v=33333333333333".data)
      none "99999999999999".data).count = 1 :=
  ⟨by decide,
    (claim_C9.1 "const VERSION = \x2711111111111111\x27; const VERSION = \x2722222222222222\x27; a.js?v=33333333333333".data
      none "99999999999999".data ⟨squote, "11111111111111".data, squote⟩
      (by decide)).1⟩

theorem upd_count_pos_iff (b : Bool) (d : Option (List Char)) (newV : List Char) :
    0 < (update_version_in_file b d none newV).count ↔
      file_first_token_spec b d ≠ none := by
  cases d with
  | none => simp [update_version_in_file, file_first_token_spec]
  | some c =>
    cases b with
    | true =>
      cases hv : gfind verM c with
      | some x => simp [update_version_in_file, file_first_token_spec, hv]
      | none =>
        simp only [update_version_in_file, file_first_token_spec, hv, if_true]
        exact gsub_count_pos_iff qv14M_lt c.length c (le_refl _)
    | false =>
      simp only [update_version_in_file, file_first_token_spec, if_false]
      exact gsub_count_pos_iff qv14M_lt c.length c (le_refl _)

theorem upd_found_none (b : Bool) (d : Option (List Char)) (newV : List Char) :
    (update_version_in_file b d none newV).found = file_first_token_spec b d := by
  cases d with
  | none => rfl
  | some c =>
    cases b with
    | true =>
      cases hv : gfind verM c with
      | some x => simp [update_version_in_file, file_first_token_spec, hv]
      | none => simp [update_version_in_file, file_first_token_spec, hv]
    | false => simp [update_version_in_file, file_first_token_spec]

theorem bump_loop_old_some (newV : List Char) :
    ∀ (fs : List (Bool × Option (List Char))) (x : List Char) (t : Nat),
      (bump_main_loop newV fs (some x) t).old = some x := by
  intro fs
  induction fs with
  | nil => intro x t; rfl
  | cons f fs ih =>
    intro x t
    obtain ⟨b, d⟩ := f
    simp only [bump_main_loop]
    rw [if_neg]
    · exact ih x _
    · rintro ⟨-, h2, -⟩
      exact Option.noConfusion h2

/-- Claim C4: the old version reported by the run is the token of the first
match found in the first processed file that contains any match; tokens in
later files, or later in the same file, never become the reported value. -/
theorem claim_C4 (newV : List Char) (files : List (Bool × Option (List Char))) :
    (bump_main_loop newV files none 0).old = reported_old_version_spec files := by
  suffices h : ∀ t, (bump_main_loop newV files none t).old =
      reported_old_version_spec files from h 0
  induction files with
  | nil => intro t; rfl
  | cons f fs ih =>
    intro t
    obtain ⟨b, d⟩ := f
    cases hT : file_first_token_spec b d with
    | some tok =>
      have hc : 0 < (update_version_in_file b d none newV).count :=
        (upd_count_pos_iff b d newV).mpr (by rw [hT]; simp)
      have hf : (update_version_in_file b d none newV).found = some tok := by
        rw [upd_found_none, hT]
      simp only [bump_main_loop]
      rw [if_pos ⟨hc, by trivial, by rw [hf]; simp⟩, hf, bump_loop_old_some]
      simp [reported_old_version_spec, hT]
    | none =>
      have hf : (update_version_in_file b d none newV).found = none := by
        rw [upd_found_none, hT]
      simp only [bump_main_loop]
      rw [if_neg (by rw [hf]; rintro ⟨-, -, hx⟩; exact hx rfl)]
      rw [ih]
      simp [reported_old_version_spec, hT]

/-- Claim C7: a missing target file yields the warning, a count of zero and
no found version; the run is not aborted and every remaining file is
processed exactly as it would be without the missing entry (same final old
version, same total, same per-file on-disk outputs with one extra missing
slot). -/
theorem claim_C7 :
    (∀ (b : Bool) (old : Option (List Char)) (newV : List Char),
      update_version_in_file b none old newV =
        ⟨none, 0, none, true⟩) ∧
    (∀ (newV : List Char) (xs ys : List (Bool × Option (List Char)))
        (b : Bool) (old : Option (List Char)) (t : Nat),
      (bump_main_loop newV (xs ++ (b, none) :: ys) old t).old =
        (bump_main_loop newV (xs ++ ys) old t).old ∧
      (bump_main_loop newV (xs ++ (b, none) :: ys) old t).total =
        (bump_main_loop newV (xs ++ ys) old t).total ∧
      (bump_main_loop newV (xs ++ (b, none) :: ys) old t).outputs =
        (bump_main_loop newV (xs ++ ys) old t).outputs.take xs.length ++
          none :: (bump_main_loop newV (xs ++ ys) old t).outputs.drop xs.length) := by
  constructor
  · intro b old newV
    rfl
  · intro newV xs
    induction xs with
    | nil =>
      intro ys b old t
      simp [bump_main_loop, update_version_in_file]
    | cons f xs ih =>
      intro ys b old t
      obtain ⟨b', d'⟩ := f
      have hrec := ih ys b
        (if 0 < (update_version_in_file b' d' old newV).count ∧ old = none ∧
            (update_version_in_file b' d' old newV).found ≠ none
          then (update_version_in_file b' d' old newV).found else old)
        (t + (update_version_in_file b' d' old newV).count)
      simp only [List.cons_append, bump_main_loop]
      refine ⟨hrec.1, hrec.2.1, ?_⟩
      simp only [List.length_cons, List.take_succ_cons, List.drop_succ_cons,
        List.cons_append]
      exact congrArg (List.cons _) hrec.2.2

theorem upd_content_old_irrel (b : Bool) (d : Option (List Char))
    (old : Option (List Char)) (newV : List Char) :
    (update_version_in_file b d old newV).content =
      (update_version_in_file b d none newV).content := by
  cases d with
  | none => rfl
  | some c =>
    cases b with
    | true =>
      cases hv : gfind verM c with
      | some x => simp [update_version_in_file, hv]
      | none => simp [update_version_in_file, hv]
    | false => simp [update_version_in_file]

theorem processDirFiles_toks (newV : List Char) (dry : Bool) :
    ∀ (fs : List (List Char × List Char)) (t : List Char),
      t ∈ (processDirFiles newV dry fs).2.toks → t = newV := by
  intro fs
  induction fs with
  | nil =>
    intro t h
    exact absurd h (by simp [processDirFiles])
  | cons f fs ih =>
    intro t h
    obtain ⟨n, c⟩ := f
    simp only [processDirFiles] at h
    by_cases hp : should_process_file n
    · rw [if_pos hp] at h
      by_cases hc : 0 < (update_versions_in_file (some c) newV dry).2
      · rw [if_pos hc] at h
        rcases List.mem_cons.mp h with h1 | h2
        · exact h1
        · exact ih t h2
      · rw [if_neg hc] at h
        exact ih t h
    · rw [if_neg hp] at h
      exact ih t h

theorem foldl_add_toks :
    ∀ (l : List ScanStats) (acc : ScanStats) (t : List Char),
      t ∈ (l.foldl ScanStats.add acc).toks →
        t ∈ acc.toks ∨ ∃ s ∈ l, t ∈ s.toks := by
  intro l
  induction l with
  | nil =>
    intro acc t h
    exact Or.inl h
  | cons s l ih =>
    intro acc t h
    rcases ih (acc.add s) t h with hin | ⟨s', hs', ht⟩
    · rcases List.mem_append.mp hin with h1 | h2
      · exact Or.inl h1
      · exact Or.inr ⟨s, List.mem_cons_self s l, h2⟩
    · exact Or.inr ⟨s', List.mem_cons_of_mem s hs', ht⟩

/-- Claim C8: the new version value is computed once per run, before any
file is processed, and that identical value reaches every rewrite: every
token recorded for a modified file during the walk equals the run's newV,
and every file of the fixed-list loop is rewritten with the one newV of the
run (its output does not depend on the threaded old-version state). -/
theorem claim_C8 :
    (∀ (newV : List Char) (dry : Bool) (fuel : Nat) (path : List (List Char))
        (d : Dir) (t : List Char),
      t ∈ (walkDir newV dry fuel path d).2.toks → t = newV) ∧
    (∀ (newV : List Char) (files : List (Bool × Option (List Char)))
        (old : Option (List Char)) (total : Nat),
      (bump_main_loop newV files old total).outputs =
        files.map (fun f => (update_version_in_file f.1 f.2 none newV).content)) := by
  constructor
  · intro newV dry fuel
    induction fuel with
    | zero =>
      intro path d t h
      exact absurd h (by simp [walkDir])
    | succ n ih =>
      intro path d t h
      obtain ⟨nm, fs, subs⟩ := d
      simp only [walkDir] at h
      rcases foldl_add_toks _ _ _ h with hin | ⟨s, hs, ht⟩
      · exact processDirFiles_toks newV dry fs t hin
      · simp only [List.map_map, List.mem_map, Function.comp] at hs
        obtain ⟨d', hd', rfl⟩ := hs
        by_cases hex : should_exclude_dir ((path ++ [nm]) ++ [d'.name])
        · rw [if_pos hex] at ht
          simp at ht
        · rw [if_neg hex] at ht
          exact ih _ d' t ht
  · intro newV files
    induction files with
    | nil => intro old total; rfl
    | cons f fs ih =>
      intro old total
      obtain ⟨b, d⟩ := f
      simp only [bump_main_loop, List.map_cons]
      rw [ih]
      rw [upd_content_old_irrel b d old newV]

/-- Claim C8, witness: a one-file tree; the only recorded token is the
run's new version. -/
theorem claim_C8_witness :
    "n".data ∈ (walkDir "n".data false 1 []
      (Dir.mk "a".data [("b.html".data, "app.js?v=1".data)] [])).2.toks ∧
    ("n".data : List Char) = "n".data :=
  ⟨by decide,
    claim_C8.1 "n".data false 1 []
      (Dir.mk "a".data [("b.html".data, "app.js?v=1".data)] []) "n".data
      (by decide)⟩

theorem setFile_self : ∀ (fs : List (List Char × List Char)) (name c : List Char),
    findFile fs name = some c → setFile fs name c = fs := by
  intro fs
  induction fs with
  | nil =>
    intro name c h
    exact absurd h (by simp [findFile])
  | cons p fs ih =>
    intro name c h
    obtain ⟨n0, c0⟩ := p
    simp only [findFile] at h
    by_cases hn : n0 = name
    · rw [if_pos hn] at h
      injection h with h
      simp [setFile, hn, h]
    · rw [if_neg hn] at h
      simp [setFile, hn, ih name c h]

theorem update_versions_in_file_dry (c newV : List Char) :
    (update_versions_in_file (some c) newV true).1 = some c ∧
    (update_versions_in_file (some c) newV true).2 =
      (update_versions_in_file (some c) newV false).2 := by
  by_cases h : (VERSION_PATTERN_sub newV c).2 = 0
  · simp [update_versions_in_file, h]
  · simp [update_versions_in_file, h]

theorem processDirFiles_dry (newV : List Char) :
    ∀ fs : List (List Char × List Char),
      (processDirFiles newV true fs).1 = fs := by
  intro fs
  induction fs with
  | nil => rfl
  | cons f fs ih =>
    obtain ⟨n, c⟩ := f
    simp only [processDirFiles]
    have hd := (update_versions_in_file_dry c newV).1
    by_cases hp : should_process_file n
    · rw [if_pos hp]
      by_cases hc : 0 < (update_versions_in_file (some c) newV true).2
      · rw [if_pos hc]
        simp [hd, ih]
      · rw [if_neg hc]
        simp [hd, ih]
    · rw [if_neg hp]
      simp [ih]

theorem map_walk_fst (g : Dir → Dir × ScanStats) (hg : ∀ d, (g d).1 = d) :
    ∀ subs : List Dir, (subs.map g).map Prod.fst = subs := by
  intro subs
  induction subs with
  | nil => rfl
  | cons d ds ih => simp [hg, ih]

theorem walkDir_dry (newV : List Char) :
    ∀ (fuel : Nat) (path : List (List Char)) (d : Dir),
      (walkDir newV true fuel path d).1 = d := by
  intro fuel
  induction fuel with
  | zero => intro path d; rfl
  | succ n ih =>
    intro path d
    obtain ⟨nm, fs, subs⟩ := d
    have hg : ∀ d' : Dir, ((fun d' =>
        if should_exclude_dir ((path ++ [nm]) ++ [d'.name])
        then (d', (⟨0, 0, []⟩ : ScanStats))
        else walkDir newV true n (path ++ [nm]) d') d').1 = d' := by
      intro d'
      by_cases hex : should_exclude_dir ((path ++ [nm]) ++ [d'.name]) = true
      · simp only [if_pos hex]
      · simp only [if_neg hex]
        exact ih (path ++ [nm]) d'
    show Dir.mk nm (processDirFiles newV true fs).1
        ((subs.map (fun d' =>
          if should_exclude_dir ((path ++ [nm]) ++ [d'.name])
          then (d', (⟨0, 0, []⟩ : ScanStats))
          else walkDir newV true n (path ++ [nm]) d')).map Prod.fst) =
      Dir.mk nm fs subs
    rw [processDirFiles_dry, map_walk_fst _ hg subs]

/-- Claim C6: in dry-run mode nothing is written: the on-disk content of
every file equals its content before the run (per file, for the
service-worker bump, over the whole walk and for the full run), while the
match counting and reporting still happen (the dry count equals the
non-dry count, and the found flag is unchanged). -/
theorem claim_C6 :
    (∀ (c newV : List Char),
      (update_versions_in_file (some c) newV true).1 = some c ∧
      (update_versions_in_file (some c) newV true).2 =
        (update_versions_in_file (some c) newV false).2) ∧
    (∀ c : List Char,
      (update_sw_cache_version (some c) true).1 = some c ∧
      (update_sw_cache_version (some c) true).2 =
        (update_sw_cache_version (some c) false).2) ∧
    (∀ (newV : List Char) (fuel : Nat) (path : List (List Char)) (d : Dir),
      (walkDir newV true fuel path d).1 = d) ∧
    (∀ (fuel : Nat) (root : Dir) (newV : List Char),
      (update_versions fuel root newV true).1 = root) := by
  have hsw : ∀ c : List Char,
      (update_sw_cache_version (some c) true).1 = some c ∧
      (update_sw_cache_version (some c) true).2 =
        (update_sw_cache_version (some c) false).2 := by
    intro c
    cases hv : gfind swM c with
    | none => simp [update_sw_cache_version, hv]
    | some x => simp [update_sw_cache_version, hv]
  refine ⟨update_versions_in_file_dry, hsw, walkDir_dry, ?_⟩
  intro fuel root newV
  simp only [update_versions]
  rw [walkDir_dry]
  cases hf : findFile root.files ("sw.js".data) with
  | none => rfl
  | some c =>
    have h1 := (hsw c).1
    obtain ⟨nm, fs, subs⟩ := root
    simp only [h1, Option.getD_some]
    simp only [Dir.name, Dir.files, Dir.subdirs] at hf ⊢
    rw [setFile_self fs _ c hf]

theorem should_exclude_dir_iff (parts : List (List Char)) :
    should_exclude_dir parts = true ↔
      ∃ comp ∈ parts, comp ∈ EXCLUDE_DIRS := by
  simp only [should_exclude_dir, List.any_eq_true]
  constructor
  · rintro ⟨e, he, hc⟩
    exact ⟨e, (List.elem_iff).mp hc, he⟩
  · rintro ⟨comp, hp, he⟩
    exact ⟨comp, he, (List.elem_iff).mpr hp⟩

theorem should_exclude_dir_mono (p q : List (List Char))
    (h : should_exclude_dir p = true) :
    should_exclude_dir (p ++ q) = true := by
  rw [should_exclude_dir_iff] at h ⊢
  obtain ⟨comp, hp, he⟩ := h
  exact ⟨comp, List.mem_append_left q hp, he⟩

theorem ScanStats.add_zero (a : ScanStats) : a.add ⟨0, 0, []⟩ = a := by
  obtain ⟨f, u, t⟩ := a
  simp [ScanStats.add]

theorem foldl_add_zeros :
    ∀ (l : List ScanStats) (acc : ScanStats),
      (∀ s ∈ l, s = (⟨0, 0, []⟩ : ScanStats)) →
        l.foldl ScanStats.add acc = acc := by
  intro l
  induction l with
  | nil => intro acc _; rfl
  | cons s l ih =>
    intro acc h
    have hs := h s (List.mem_cons_self s l)
    simp only [List.foldl_cons, hs, ScanStats.add_zero]
    exact ih acc (fun s' hs' => h s' (List.mem_cons_of_mem s hs'))

/-- Claim C10: should_exclude_dir is true exactly when some path component
is in EXCLUDE_DIRS; consequently, when the scan root itself lies under an
excluded ancestor (any path component such as lib), every subdirectory of
the root is pruned and only the root's own files are scanned. -/
theorem claim_C10 :
    (∀ parts : List (List Char),
      should_exclude_dir parts = true ↔
        ∃ comp ∈ parts, comp ∈ EXCLUDE_DIRS) ∧
    (∀ (newV : List Char) (dry : Bool) (fuel : Nat) (path : List (List Char))
        (n : List Char) (fs : List (List Char × List Char)) (subs : List Dir),
      should_exclude_dir (path ++ [n]) = true →
      walkDir newV dry (fuel + 1) path (Dir.mk n fs subs) =
        (Dir.mk n (processDirFiles newV dry fs).1 subs,
          (processDirFiles newV dry fs).2)) := by
  refine ⟨should_exclude_dir_iff, ?_⟩
  intro newV dry fuel path n fs subs h
  have hg : ∀ d' : Dir,
      (if should_exclude_dir ((path ++ [n]) ++ [d'.name])
        then (d', (⟨0, 0, []⟩ : ScanStats))
        else walkDir newV dry fuel (path ++ [n]) d') =
        (d', (⟨0, 0, []⟩ : ScanStats)) := by
    intro d'
    exact if_pos (should_exclude_dir_mono _ _ h)
  have hfst : (subs.map (fun d' =>
      if should_exclude_dir ((path ++ [n]) ++ [d'.name])
      then (d', (⟨0, 0, []⟩ : ScanStats))
      else walkDir newV dry fuel (path ++ [n]) d')).map Prod.fst = subs :=
    map_walk_fst _ (fun d' => congrArg Prod.fst (hg d')) subs
  have hsnd : ∀ s ∈ (subs.map (fun d' =>
      if should_exclude_dir ((path ++ [n]) ++ [d'.name])
      then (d', (⟨0, 0, []⟩ : ScanStats))
      else walkDir newV dry fuel (path ++ [n]) d')).map Prod.snd,
        s = (⟨0, 0, []⟩ : ScanStats) := by
    intro s hs
    simp only [List.map_map, List.mem_map, Function.comp] at hs
    obtain ⟨d', -, rfl⟩ := hs
    exact congrArg Prod.snd (hg d')
  show (Dir.mk n (processDirFiles newV dry fs).1
      ((subs.map (fun d' =>
        if should_exclude_dir ((path ++ [n]) ++ [d'.name])
        then (d', (⟨0, 0, []⟩ : ScanStats))
        else walkDir newV dry fuel (path ++ [n]) d')).map Prod.fst),
    ((subs.map (fun d' =>
      if should_exclude_dir ((path ++ [n]) ++ [d'.name])
      then (d', (⟨0, 0, []⟩ : ScanStats))
      else walkDir newV dry fuel (path ++ [n]) d')).map Prod.snd).foldl
        ScanStats.add (processDirFiles newV dry fs).2) =
    (Dir.mk n (processDirFiles newV dry fs).1 subs,
      (processDirFiles newV dry fs).2)
  rw [hfst, foldl_add_zeros _ _ hsnd]

/-- Claim C10, witness: a scan rooted under a lib directory prunes the
root's subdirectory and only processes the root's files. -/
theorem claim_C10_witness :
    should_exclude_dir (["lib".data, "a".data]) = true ∧
    walkDir "n".data false 1 ["lib".data]
        (Dir.mk "a".data [("f.html".data, "x?v=1".data)] [Dir.mk "b".data [] []]) =
      (Dir.mk "a".data
          (processDirFiles "n".data false [("f.html".data, "x?v=1".data)]).1
          [Dir.mk "b".data [] []],
        (processDirFiles "n".data false [("f.html".data, "x?v=1".data)]).2) :=
  ⟨by decide,
    claim_C10.2 "n".data false 0 ["lib".data] "a".data
      [("f.html".data, "x?v=1".data)] [Dir.mk "b".data [] []] (by decide)⟩

/-- The tree of the spec's scan scenario: a/style.css with no marker,
a/index.html with one query-string reference, a/.git/ignored.html with a
query-string reference. -/
def c5_tree : Dir :=
  Dir.mk "a".data
    [("style.css".data, "body text".data),
      ("index.html".data, "<script src=app.js?v=1></script>".data)]
    [Dir.mk ".git".data
      [("ignored.html".data, "<a href=x.html?v=1>".data)] []]

/-- The run of the scan scenario, with the fixed new version
20250101000000 and fuel two (the tree's depth). -/
def c5_run : Dir × ScanStats × Bool :=
  update_versions 2 c5_tree "20250101000000".data false

/-- Claim C5: the scan reports exactly one file updated with one
replacement, rewrites a/index.html, leaves a/style.css byte-identical and
leaves the file under a/.git untouched. -/
theorem claim_C5 :
    c5_run.2.1.files = 1 ∧ c5_run.2.1.updates = 1 ∧
    findFile c5_run.1.files ("index.html".data) =
      some "<script src=app.js?v=20250101000000></script>".data ∧
    findFile c5_run.1.files ("style.css".data) = some "body text".data ∧
    c5_run.1.subdirs.map Dir.name = [".git".data] ∧
    c5_run.1.subdirs.map Dir.files =
      [[("ignored.html".data, "<a href=x.html?v=1>".data)]] := by
  refine ⟨by decide, by decide, by decide, by decide, by decide, by decide⟩
